import Mathlib

/-!
Shallow embedding of `fill_latent.py` (BrLP manifest utility).

The script has three parts:

* `make_latent_path`: replaces the trailing `.nii` / `.nii.gz` (matched by the
  regex `\.nii(?:\.gz)?$` with `re.IGNORECASE`) by `_latent.npz`, raising
  `ValueError` when the regex does not match.
* `fill_latent`: given a pandas DataFrame, ensures a `latent_path` column
  exists (creating an all-NA column when absent), computes the mask of rows
  whose `latent_path` is NA or a whitespace-only string, and assigns the
  transformed `image_path` to exactly those rows (the transform of every
  selected row is computed before any assignment happens, so an error leaves
  every `latent_path` cell unassigned).
* `main`: loads a CSV with `dtype=str`, exits with a diagnostic when the
  `image_path` column is absent, otherwise fills and writes the table and
  prints a confirmation naming the output destination.

Strings are modelled as `List Char`.  Python's un-anchored `search` with the
pattern `\.nii(?:\.gz)?$` succeeds exactly when the string — after peeling a
single final newline, because `$` also matches just before a final `'\n'` —
ends (case-insensitively) with `".nii"` or `".nii.gz"`; the (unique) match is
that trailing marker, and `sub` replaces it.  Case-insensitivity is ASCII
lower-casing: every character of the pattern is an ASCII letter or a dot.
-/

/-- Lower-case a string character-wise (ASCII), modelling `re.IGNORECASE`
comparison against the all-ASCII pattern. -/
def lc (s : List Char) : List Char := s.map Char.toLower

/-- The marker `".nii"` (lower-cased). -/
def NII : List Char := ['.', 'n', 'i', 'i']

/-- The marker `".nii.gz"` (lower-cased). -/
def NIIGZ : List Char := ['.', 'n', 'i', 'i', '.', 'g', 'z']

/-- The replacement `"_latent.npz"`. -/
def LATENT : List Char := ['_', 'l', 'a', 't', 'e', 'n', 't', '.', 'n', 'p', 'z']

/-- The input with a single final newline removed: the part of the string in
which the regex match must end, since `$` matches at the end of the string or
just before a final `'\n'`. -/
def stripFinalNl (s : List Char) : List Char :=
  if s.getLast? = some '\n' then s.dropLast else s

/-- The final newline peeled off by `stripFinalNl` (kept after substitution). -/
def finalNl (s : List Char) : List Char :=
  if s.getLast? = some '\n' then ['\n'] else []

/-- Does the regex `\.nii(?:\.gz)?$` match in `s`?  True iff the newline-peeled
string ends case-insensitively in one of the two markers. -/
def ends_with_marker (s : List Char) : Bool :=
  NIIGZ.isSuffixOf (lc s) || NII.isSuffixOf (lc s)

/-- `make_latent_path` from `fill_latent.py`: substitute the trailing marker
(the unique regex match) by `"_latent.npz"`, or raise `ValueError` when the
regex does not match anywhere in the string. -/
def make_latent_path (s : List Char) : Except Unit (List Char) :=
  if NIIGZ.isSuffixOf (lc (stripFinalNl s)) then
    .ok ((stripFinalNl s).take ((stripFinalNl s).length - 7) ++ LATENT ++ finalNl s)
  else if NII.isSuffixOf (lc (stripFinalNl s)) then
    .ok ((stripFinalNl s).take ((stripFinalNl s).length - 4) ++ LATENT ++ finalNl s)
  else
    .error ()

/-- Python `str.strip()` whitespace characters (the ASCII ones). -/
def pyIsSpace (c : Char) : Bool :=
  c == ' ' || c == '\t' || c == '\n' || c == '\r' || c == '\x0b' || c == '\x0c'

/-- `str.strip()`: drop whitespace from both ends. -/
def strip (s : List Char) : List Char :=
  ((s.dropWhile pyIsSpace).reverse.dropWhile pyIsSpace).reverse

/-- The missing-mask predicate of `fill_latent`: a `latent_path` cell is
missing when it is NA (`isna`) or its string strips to empty. -/
def blank (c : Option (List Char)) : Bool :=
  match c with
  | none => true
  | some s => strip s == []

/-- One row of the manifest.  The CSV is read with `dtype=str`, so every cell
is a string or NA; `image_path` cells are modelled as strings (the claims only
concern string-valued `image_path` cells), `latent_path` and the cells of all
other columns as `Option` (with `none` for NA). -/
structure Row where
  image_path : List Char
  latent_path : Option (List Char)
  others : List (Option (List Char))
deriving DecidableEq

/-- The manifest table: whether the `latent_path` column is present, plus the
rows.  When `hasLatentCol = false`, the `latent_path` fields of the rows are
not part of the DataFrame (the column does not exist). -/
structure Table where
  hasLatentCol : Bool
  rows : List Row
deriving DecidableEq

/-- `df["latent_path"] = pd.NA` on a table without the column: every cell of
the new column is NA. -/
def resetLatent (r : Row) : Row := { r with latent_path := none }

/-- The rows of the DataFrame after the column-existence step of
`fill_latent`. -/
def ensureCol (t : Table) : List Row :=
  if t.hasLatentCol then t.rows else t.rows.map resetLatent

/-- The in-memory DataFrame right after `fill_latent` has ensured that the
`latent_path` column exists (the state the mutation leaves behind when the
later `.apply` raises). -/
def afterEnsure (t : Table) : Table := { hasLatentCol := true, rows := ensureCol t }

/-- The per-row effect of the mask-and-assign step: a missing row gets the
transformed `image_path` (an error in the transform aborts), any other row is
untouched. -/
def fillRow (r : Row) : Except Unit Row :=
  if blank r.latent_path then
    match make_latent_path r.image_path with
    | .ok v => .ok { r with latent_path := some v }
    | .error e => .error e
  else
    .ok r

/-- The mask-and-assign step over all rows.  Pandas computes the transform of
every selected row before assigning any of them, so an error in any selected
row means no assignment at all happens; returning `Except` captures this:
either every row is processed or the error propagates with no partial rows. -/
def applyTransform : List Row → Except Unit (List Row)
  | [] => .ok []
  | r :: rs =>
    match fillRow r with
    | .error e => .error e
    | .ok r' =>
      match applyTransform rs with
      | .error e => .error e
      | .ok rs' => .ok (r' :: rs')

/-- `fill_latent` from `fill_latent.py`. -/
def fill_latent (t : Table) : Except Unit Table :=
  match applyTransform (ensureCol t) with
  | .error e => .error e
  | .ok rs => .ok { hasLatentCol := true, rows := rs }

/-- The command-line arguments: `--in` (required) and `--out` (optional). -/
structure MainArgs where
  inp : List Char
  out : Option (List Char)

/-- The result of loading the input CSV: whether the `image_path` column is
present, and the table. -/
structure LoadedCSV where
  hasImageCol : Bool
  table : Table

/-- The message passed to `sys.exit` when `image_path` is absent. -/
def missingColMsg : List Char :=
  "CSV must contain an image_path column.".toList

/-- The confirmation line printed on success, naming the destination. -/
def confirmMsg (dest : List Char) : List Char :=
  "Latent paths written → ".toList ++ dest

/-- Observable outcome of `main`: `exited` is a `sys.exit` with a diagnostic
message (non-zero exit status, nothing written), `raised` is an uncaught
`ValueError` from the transform (nothing written), `written dest t msg` means
the filled table `t` was written to `dest` and the line `msg` printed. -/
inductive MainResult where
  | exited (msg : List Char)
  | raised
  | written (dest : List Char) (t : Table) (printed : List Char)

/-- `main` from `fill_latent.py`, as a function of the parsed arguments and
the loaded CSV.  (Named `mainProg` because Lean reserves `main` for an `IO`
entry point.) -/
def mainProg (a : MainArgs) (l : LoadedCSV) : MainResult :=
  let out := a.out.getD a.inp
  if l.hasImageCol = false then
    .exited missingColMsg
  else
    match fill_latent l.table with
    | .error _ => .raised
    | .ok t => .written out t (confirmMsg out)

/-! ### Basic facts about the markers and the substitution -/

lemma NII_length : NII.length = 4 := rfl

lemma NIIGZ_length : NIIGZ.length = 7 := rfl

lemma lc_append (p m : List Char) : lc (p ++ m) = lc p ++ lc m := by
  simp [lc]

lemma lc_length (m : List Char) : (lc m).length = m.length := by
  simp [lc]

/-- The last character of a marker-cased string is not a newline. -/
lemma getLast?_ne_nl (m : List Char) (h : lc m = NIIGZ ∨ lc m = NII) :
    ¬ m.getLast? = some '\n' := by
  intro hnl
  have hmap : (lc m).getLast? = m.getLast?.map Char.toLower := by
    simp [lc]
  rw [hnl] at hmap
  rcases h with h | h <;> rw [h] at hmap <;> exact absurd hmap (by decide)

lemma marker_ne_nil (m : List Char) (h : lc m = NIIGZ ∨ lc m = NII) : m ≠ [] := by
  intro hm
  rcases h with h | h <;> rw [hm] at h <;> exact absurd h (by decide)

/-- A string ending in a marker has no final newline to peel. -/
lemma stripFinalNl_marker (p m : List Char) (h : lc m = NIIGZ ∨ lc m = NII) :
    stripFinalNl (p ++ m) = p ++ m ∧ finalNl (p ++ m) = [] := by
  have hlast : (p ++ m).getLast? = m.getLast? :=
    List.getLast?_append_of_ne_nil p (marker_ne_nil m h)
  have hne : ¬ (p ++ m).getLast? = some '\n' := by
    rw [hlast]; exact getLast?_ne_nl m h
  constructor
  · unfold stripFinalNl
    rw [if_neg hne]
  · unfold finalNl
    rw [if_neg hne]

/-- `".nii.gz"` is not a case-insensitive suffix of a string ending
case-insensitively in `".nii"`. -/
lemma not_niigz_suffix (q : List Char) :
    ¬ NIIGZ <:+ q ++ NII := by
  rintro ⟨t, ht⟩
  have hsplit : t ++ NIIGZ = (t ++ ['.', 'n', 'i']) ++ ['i', '.', 'g', 'z'] := by
    simp [NIIGZ]
  rw [hsplit] at ht
  have := (List.append_inj' ht (by simp [NII])).2
  exact absurd this (by decide)

/-- Core substitution lemma: when the newline-peeled input splits as prefix
plus marker, `make_latent_path` replaces exactly that marker and re-appends
the peeled newline. -/
lemma make_eq_of_split (s p m : List Char)
    (hs : stripFinalNl s = p ++ m) (h : lc m = NIIGZ ∨ lc m = NII) :
    make_latent_path s = .ok (p ++ LATENT ++ finalNl s) := by
  rcases h with h | h
  · have hsuf : NIIGZ.isSuffixOf (lc (stripFinalNl s)) = true := by
      rw [hs, lc_append, h, List.isSuffixOf_iff_suffix]
      exact List.suffix_append _ _
    have hlen : m.length = 7 := by
      have := lc_length m; rw [h, NIIGZ_length] at this; omega
    have htake : (stripFinalNl s).take ((stripFinalNl s).length - 7) = p := by
      rw [hs]
      have : (p ++ m).length - 7 = p.length := by simp [hlen]
      rw [this, List.take_left]
    simp [make_latent_path, hsuf, htake]
  · have hsuf : NIIGZ.isSuffixOf (lc (stripFinalNl s)) = false := by
      rw [hs, lc_append, h]
      by_contra hc
      simp only [Bool.not_eq_false, List.isSuffixOf_iff_suffix] at hc
      exact not_niigz_suffix (lc p) hc
    have hsuf' : NII.isSuffixOf (lc (stripFinalNl s)) = true := by
      rw [hs, lc_append, h, List.isSuffixOf_iff_suffix]
      exact List.suffix_append _ _
    have hlen : m.length = 4 := by
      have := lc_length m; rw [h, NII_length] at this; omega
    have htake : (stripFinalNl s).take ((stripFinalNl s).length - 4) = p := by
      rw [hs]
      have : (p ++ m).length - 4 = p.length := by simp [hlen]
      rw [this, List.take_left]
    simp [make_latent_path, hsuf, hsuf', htake]

/-- The substitution on a string ending in a marker at its literal end. -/
lemma make_sub_of_trailing_marker (p m : List Char)
    (h : lc m = NIIGZ ∨ lc m = NII) :
    make_latent_path (p ++ m) = .ok (p ++ LATENT) := by
  obtain ⟨hstrip, hnl⟩ := stripFinalNl_marker p m h
  have := make_eq_of_split (p ++ m) p m hstrip h
  rw [hnl, List.append_nil] at this
  exact this

/-- C1: For every string that ends with a recognized marker — written `p ++ m`
with `m` the (case-insensitive) marker `.nii` or `.nii.gz` at the end —
`make_latent_path` returns `p ++ "_latent.npz"`: exactly the trailing marker
is replaced and every other character, including earlier `.nii` occurrences
inside `p`, is unchanged. -/
theorem make_latent_path_replaces_trailing_marker (p m : List Char)
    (h : lc m = NIIGZ ∨ lc m = NII) :
    make_latent_path (p ++ m) = .ok (p ++ LATENT) :=
  make_sub_of_trailing_marker p m h

/-- Witness for C1: `"a.nii.b.NII.gz"` maps to `"a.nii.b_latent.npz"` (the
earlier `.nii` in the prefix is untouched, the trailing marker is
case-insensitive). -/
theorem make_latent_path_replaces_trailing_marker_witness :
    (lc ['.', 'N', 'I', 'I', '.', 'g', 'z'] = NIIGZ ∨
      lc ['.', 'N', 'I', 'I', '.', 'g', 'z'] = NII) ∧
    make_latent_path (['a', '.', 'n', 'i', 'i', '.', 'b'] ++
        ['.', 'N', 'I', 'I', '.', 'g', 'z']) =
      .ok (['a', '.', 'n', 'i', 'i', '.', 'b'] ++ LATENT) :=
  ⟨Or.inl (by decide),
    make_latent_path_replaces_trailing_marker
      ['a', '.', 'n', 'i', 'i', '.', 'b'] ['.', 'N', 'I', 'I', '.', 'g', 'z']
      (Or.inl (by decide))⟩

/-- C9: the marker need not sit at the literal end of the string — Python's
`$` also matches just before a final newline, so for every string ending in a
marker, appending `"\n"` still succeeds and the substitution happens before
the trailing newline, which is preserved. -/
theorem make_latent_path_final_newline (p m : List Char)
    (h : lc m = NIIGZ ∨ lc m = NII) :
    make_latent_path (p ++ m ++ ['\n']) = .ok (p ++ LATENT ++ ['\n']) := by
  have hlast : (p ++ m ++ ['\n']).getLast? = some '\n' :=
    List.getLast?_concat _
  have hstrip : stripFinalNl (p ++ m ++ ['\n']) = p ++ m := by
    unfold stripFinalNl
    rw [if_pos hlast, List.dropLast_concat]
  have hnl : finalNl (p ++ m ++ ['\n']) = ['\n'] := by
    unfold finalNl
    rw [if_pos hlast]
  have := make_eq_of_split (p ++ m ++ ['\n']) p m hstrip h
  rw [hnl] at this
  exact this

/-- Witness for C9: `"a.nii\n"` maps to `"a_latent.npz\n"`. -/
theorem make_latent_path_final_newline_witness :
    (lc ['.', 'n', 'i', 'i'] = NIIGZ ∨ lc ['.', 'n', 'i', 'i'] = NII) ∧
    make_latent_path (['a'] ++ ['.', 'n', 'i', 'i'] ++ ['\n']) =
      .ok (['a'] ++ LATENT ++ ['\n']) :=
  ⟨Or.inr (by decide),
    make_latent_path_final_newline ['a'] ['.', 'n', 'i', 'i'] (Or.inr (by decide))⟩

/-- Counterexample to C2 as stated: `"a.nii\n"` does not end with a recognized
marker at the end of the string, yet `make_latent_path` succeeds instead of
raising. -/
theorem make_latent_path_no_marker_counterexample :
    ends_with_marker ['a', '.', 'n', 'i', 'i', '\n'] = false ∧
    make_latent_path ['a', '.', 'n', 'i', 'i', '\n'] =
      .ok ['a', '_', 'l', 'a', 't', 'e', 'n', 't', '.', 'n', 'p', 'z', '\n'] := by
  constructor
  · decide
  · rfl

/-- C2 (amended): for every string that does not end with a recognized marker
even after removing a single final newline — i.e. whose newline-peeled form
ends with neither `.nii` nor `.nii.gz` case-insensitively — `make_latent_path`
raises `ValueError` rather than returning a value. -/
theorem make_latent_path_error_of_no_marker (s : List Char)
    (h : ends_with_marker (stripFinalNl s) = false) :
    make_latent_path s = .error () := by
  have h2 := h
  unfold ends_with_marker at h2
  rw [Bool.or_eq_false_iff] at h2
  unfold make_latent_path
  rw [h2.1, h2.2]
  rfl

/-- Witness for C2 (amended): `"abc"` is rejected. -/
theorem make_latent_path_error_of_no_marker_witness :
    ends_with_marker (stripFinalNl ['a', 'b', 'c']) = false ∧
    make_latent_path ['a', 'b', 'c'] = .error () :=
  ⟨by decide, make_latent_path_error_of_no_marker ['a', 'b', 'c'] (by decide)⟩

/-! ### Helper lemmas about `strip`, `blank`, `fillRow` and `applyTransform` -/

/-- A string containing a non-whitespace character does not strip to empty. -/
lemma strip_ne_nil_of_mem (s : List Char) (c : Char) (hc : c ∈ s)
    (hw : pyIsSpace c = false) : strip s ≠ [] := by
  intro hnil
  unfold strip at hnil
  rw [List.reverse_eq_nil_iff, List.dropWhile_eq_nil_iff] at hnil
  have hcd : c ∈ s.dropWhile pyIsSpace := by
    have := List.takeWhile_append_dropWhile (p := pyIsSpace) (l := s)
    rw [← this] at hc
    rcases List.mem_append.mp hc with h | h
    · exact absurd (List.mem_takeWhile_imp h) (by simp [hw])
    · exact h
  have := hnil c (List.mem_reverse.mpr hcd)
  rw [hw] at this
  exact Bool.false_ne_true this

/-- A successful transform result is never blank: it contains the
non-whitespace character `'z'` from `"_latent.npz"`. -/
lemma blank_make_ok (s v : List Char) (h : make_latent_path s = .ok v) :
    blank (some v) = false := by
  have hz : 'z' ∈ v := by
    unfold make_latent_path at h
    split at h
    · rw [Except.ok.injEq] at h
      rw [← h]
      refine List.mem_append.mpr (Or.inl (List.mem_append.mpr (Or.inr ?_)))
      decide
    · split at h
      · rw [Except.ok.injEq] at h
        rw [← h]
        refine List.mem_append.mpr (Or.inl (List.mem_append.mpr (Or.inr ?_)))
        decide
      · exact absurd h (by simp)
  have := strip_ne_nil_of_mem v 'z' hz (by decide)
  unfold blank
  simpa using this

/-- A non-blank cell holds a string that does not strip to empty. -/
lemma blank_false_elim (c : Option (List Char)) (h : blank c = false) :
    ∃ s, c = some s ∧ strip s ≠ [] := by
  match c with
  | none => exact absurd h (by simp [blank])
  | some s =>
    refine ⟨s, rfl, ?_⟩
    unfold blank at h
    simpa using h

lemma fillRow_not_blank (r : Row) (h : blank r.latent_path = false) :
    fillRow r = .ok r := by
  unfold fillRow
  rw [h]
  rfl

lemma fillRow_blank_ok (r : Row) (v : List Char) (hb : blank r.latent_path = true)
    (hm : make_latent_path r.image_path = .ok v) :
    fillRow r = .ok { r with latent_path := some v } := by
  unfold fillRow
  rw [hb, hm]
  rfl

lemma fillRow_blank_err (r : Row) (hb : blank r.latent_path = true)
    (hm : make_latent_path r.image_path = .error ()) :
    fillRow r = .error () := by
  unfold fillRow
  rw [hb, hm]
  rfl

/-- Inversion for a successful `fillRow`. -/
lemma fillRow_ok_cases (r r' : Row) (h : fillRow r = .ok r') :
    (blank r.latent_path = false ∧ r' = r) ∨
      (blank r.latent_path = true ∧
        ∃ v, make_latent_path r.image_path = .ok v ∧
          r' = { r with latent_path := some v }) := by
  unfold fillRow at h
  by_cases hb : blank r.latent_path = true
  · rw [if_pos hb] at h
    right
    refine ⟨hb, ?_⟩
    match hm : make_latent_path r.image_path with
    | .ok v =>
      rw [hm] at h
      rw [Except.ok.injEq] at h
      exact ⟨v, rfl, h.symm⟩
    | .error e =>
      rw [hm] at h
      exact absurd h (by simp)
  · rw [if_neg hb] at h
    rw [Except.ok.injEq] at h
    exact Or.inl ⟨by simpa using hb, h.symm⟩

/-- If every row is processed successfully with postcondition `P`, the whole
pass succeeds and `P` holds pointwise. -/
lemma applyTransform_ok_forall (P : Row → Row → Prop) :
    ∀ l : List Row, (∀ r ∈ l, ∃ r', fillRow r = .ok r' ∧ P r r') →
      ∃ l', applyTransform l = .ok l' ∧ List.Forall₂ P l l'
  | [], _ => ⟨[], rfl, List.Forall₂.nil⟩
  | r :: rs, h => by
    obtain ⟨r', hr', hP⟩ := h r (List.mem_cons_self r rs)
    obtain ⟨rs', hrs', hPs⟩ :=
      applyTransform_ok_forall P rs (fun x hx => h x (List.mem_cons_of_mem r hx))
    refine ⟨r' :: rs', ?_, List.Forall₂.cons hP hPs⟩
    unfold applyTransform
    rw [hr', hrs']

/-- A row whose `fillRow` raises makes the whole pass raise. -/
lemma applyTransform_error_of_mem (r : Row) :
    ∀ l : List Row, r ∈ l → fillRow r = .error () →
      applyTransform l = .error ()
  | [], hr, _ => absurd hr (List.not_mem_nil r)
  | r₀ :: rs, hr, herr => by
    unfold applyTransform
    match hfr : fillRow r₀ with
    | .error e => rfl
    | .ok r₀' =>
      rcases List.mem_cons.mp hr with rfl | hmem
      · rw [herr] at hfr
        exact absurd hfr (by simp)
      · rw [applyTransform_error_of_mem r rs hmem herr]

/-- Inversion: a successful pass processed each row successfully, in order. -/
lemma applyTransform_eq_ok :
    ∀ (l l' : List Row), applyTransform l = .ok l' →
      List.Forall₂ (fun a b => fillRow a = .ok b) l l'
  | [], l', h => by
    unfold applyTransform at h
    rw [Except.ok.injEq] at h
    rw [← h]
    exact List.Forall₂.nil
  | r :: rs, l', h => by
    unfold applyTransform at h
    match hfr : fillRow r with
    | .error e => rw [hfr] at h; exact absurd h (by simp)
    | .ok r' =>
      rw [hfr] at h
      match hrs : applyTransform rs with
      | .error e => rw [hrs] at h; exact absurd h (by simp)
      | .ok rs' =>
        rw [hrs] at h
        rw [Except.ok.injEq] at h
        rw [← h]
        exact List.Forall₂.cons hfr (applyTransform_eq_ok rs rs' hrs)

/-- A pass over rows with no blank cell changes nothing. -/
lemma applyTransform_id_of_not_blank :
    ∀ l : List Row, (∀ r ∈ l, blank r.latent_path = false) →
      applyTransform l = .ok l
  | [], _ => rfl
  | r :: rs, h => by
    unfold applyTransform
    rw [fillRow_not_blank r (h r (List.mem_cons_self r rs)),
      applyTransform_id_of_not_blank rs (fun x hx => h x (List.mem_cons_of_mem r hx))]

/-- A string ending in a marker splits as prefix plus marker. -/
lemma exists_split_of_marker (s : List Char) (h : ends_with_marker s = true) :
    ∃ p m, s = p ++ m ∧ (lc m = NIIGZ ∨ lc m = NII) := by
  unfold ends_with_marker at h
  rcases Bool.or_eq_true_iff.mp h with h | h
  · rw [List.isSuffixOf_iff_suffix] at h
    obtain ⟨t, ht⟩ := h
    refine ⟨s.take (s.length - 7), s.drop (s.length - 7), (List.take_append_drop _ s).symm,
      Or.inl ?_⟩
    have hlen : (lc s).length = t.length + 7 := by rw [← ht]; simp [NIIGZ]
    rw [lc_length] at hlen
    have : lc (s.drop (s.length - 7)) = (lc s).drop (s.length - 7) := by
      simp [lc]
    rw [this, ← ht]
    have htl : t.length = s.length - 7 := by omega
    rw [← htl, List.drop_left]
  · rw [List.isSuffixOf_iff_suffix] at h
    obtain ⟨t, ht⟩ := h
    refine ⟨s.take (s.length - 4), s.drop (s.length - 4), (List.take_append_drop _ s).symm,
      Or.inr ?_⟩
    have hlen : (lc s).length = t.length + 4 := by rw [← ht]; simp [NII]
    rw [lc_length] at hlen
    have : lc (s.drop (s.length - 4)) = (lc s).drop (s.length - 4) := by
      simp [lc]
    rw [this, ← ht]
    have htl : t.length = s.length - 4 := by omega
    rw [← htl, List.drop_left]

/-- A string ending in a marker transforms successfully. -/
lemma make_ok_of_marker (s : List Char) (h : ends_with_marker s = true) :
    ∃ v, make_latent_path s = .ok v := by
  obtain ⟨p, m, rfl, hm⟩ := exists_split_of_marker s h
  exact ⟨p ++ LATENT, make_sub_of_trailing_marker p m hm⟩

lemma blank_some_nil : blank (some ([] : List Char)) = true := by decide

lemma ne_nil_of_blank_false (v : List Char) (h : blank (some v) = false) : v ≠ [] := by
  intro hv
  rw [hv, blank_some_nil] at h
  exact absurd h (by decide)

/-- The postcondition established by `fillRow` on marker-ended rows. -/
def RowPost (r r' : Row) : Prop :=
  ∃ v, r'.latent_path = some v ∧ blank (some v) = false ∧
    ((blank r.latent_path = false ∧ r.latent_path = some v) ∨
      (blank r.latent_path = true ∧ make_latent_path r.image_path = .ok v))

/-- Row-level invariant: a row whose `image_path` ends in a marker is
processed successfully, ending with a non-blank `latent_path` that is either
the untouched prior value or the transform of `image_path`. -/
lemma fillRow_ok_of_marker (r : Row) (h : ends_with_marker r.image_path = true) :
    ∃ r', fillRow r = .ok r' ∧ RowPost r r' := by
  unfold RowPost
  by_cases hb : blank r.latent_path = true
  · obtain ⟨v, hv⟩ := make_ok_of_marker r.image_path h
    exact ⟨{ r with latent_path := some v }, fillRow_blank_ok r v hb hv,
      v, rfl, blank_make_ok _ v hv, Or.inr ⟨hb, hv⟩⟩
  · rw [Bool.not_eq_true] at hb
    obtain ⟨s, hs, hstrip⟩ := blank_false_elim r.latent_path hb
    have hbs : blank (some s) = false := by
      unfold blank
      simpa using hstrip
    exact ⟨r, fillRow_not_blank r hb, s, hs, hbs, Or.inl ⟨hb, hs⟩⟩

lemma ensureCol_of_hasCol (t : Table) (h : t.hasLatentCol = true) :
    ensureCol t = t.rows := by
  unfold ensureCol
  rw [h]
  rfl

lemma ensureCol_of_noCol (t : Table) (h : t.hasLatentCol = false) :
    ensureCol t = t.rows.map resetLatent := by
  unfold ensureCol
  rw [h]
  rfl

/-- C3: for every input table — including one where the `latent_path` column
is entirely absent — whose `image_path` values all end in a recognized marker,
`fill_latent` succeeds, the resulting table has the `latent_path` column, and
row for row the `latent_path` value is non-empty and is either the row's prior
value (the column being present) or exactly the suffix-substituted form of the
row's `image_path`. -/
theorem fill_latent_invariant (t : Table)
    (h : ∀ r ∈ t.rows, ends_with_marker r.image_path = true) :
    ∃ t', fill_latent t = .ok t' ∧ t'.hasLatentCol = true ∧
      List.Forall₂ (fun r r' => ∃ v, r'.latent_path = some v ∧ v ≠ [] ∧
        ((t.hasLatentCol = true ∧ r.latent_path = some v) ∨
          make_latent_path r.image_path = .ok v)) t.rows t'.rows := by
  by_cases ht : t.hasLatentCol = true
  · obtain ⟨l', happ, hforall⟩ := applyTransform_ok_forall RowPost t.rows
      (fun r hr => fillRow_ok_of_marker r (h r hr))
    refine ⟨{ hasLatentCol := true, rows := l' }, ?_, rfl, ?_⟩
    · unfold fill_latent
      rw [ensureCol_of_hasCol t ht, happ]
    · refine hforall.imp (fun r r' hq => ?_)
      obtain ⟨v, hv, hbv, hd⟩ := hq
      refine ⟨v, hv, ne_nil_of_blank_false v hbv, ?_⟩
      rcases hd with ⟨_, hlat⟩ | ⟨_, hmk⟩
      · exact Or.inl ⟨ht, hlat⟩
      · exact Or.inr hmk
  · rw [Bool.not_eq_true] at ht
    obtain ⟨l', happ, hforall⟩ := applyTransform_ok_forall RowPost (t.rows.map resetLatent)
      (fun r hr => by
        obtain ⟨x, hx, rfl⟩ := List.mem_map.mp hr
        exact fillRow_ok_of_marker (resetLatent x) (h x hx))
    refine ⟨{ hasLatentCol := true, rows := l' }, ?_, rfl, ?_⟩
    · unfold fill_latent
      rw [ensureCol_of_noCol t ht, happ]
    · rw [List.forall₂_map_left_iff] at hforall
      refine hforall.imp (fun r r' hq => ?_)
      obtain ⟨v, hv, hbv, hd⟩ := hq
      refine ⟨v, hv, ne_nil_of_blank_false v hbv, ?_⟩
      rcases hd with ⟨hbf, _⟩ | ⟨_, hmk⟩
      · exact absurd hbf (by simp [resetLatent, blank])
      · exact Or.inr hmk

/-- Witness for C3: a two-row table without the `latent_path` column. -/
theorem fill_latent_invariant_witness :
    (∀ r ∈ (Table.mk false
        [Row.mk ['a', '.', 'n', 'i', 'i'] none [],
          Row.mk ['b', '.', 'N', 'I', 'I', '.', 'g', 'z'] none [some ['x']]]).rows,
      ends_with_marker r.image_path = true) ∧
    ∃ t', fill_latent (Table.mk false
        [Row.mk ['a', '.', 'n', 'i', 'i'] none [],
          Row.mk ['b', '.', 'N', 'I', 'I', '.', 'g', 'z'] none [some ['x']]]) = .ok t' ∧
      t'.hasLatentCol = true ∧
      List.Forall₂ (fun r r' => ∃ v, r'.latent_path = some v ∧ v ≠ [] ∧
        (((Table.mk false
            [Row.mk ['a', '.', 'n', 'i', 'i'] none [],
              Row.mk ['b', '.', 'N', 'I', 'I', '.', 'g', 'z'] none [some ['x']]]).hasLatentCol
              = true ∧ r.latent_path = some v) ∨
          make_latent_path r.image_path = .ok v))
        (Table.mk false
          [Row.mk ['a', '.', 'n', 'i', 'i'] none [],
            Row.mk ['b', '.', 'N', 'I', 'I', '.', 'g', 'z'] none [some ['x']]]).rows t'.rows :=
  ⟨by decide, fill_latent_invariant _ (by decide)⟩

/-- C4: if the transform fails for any row of the missing-set, `fill_latent`
propagates the failure — it returns no table at all, so no row is assigned and
no row is skipped silently — and `main` raises instead of writing any output
file. -/
theorem fill_latent_fail_fast (t : Table) (r : Row) (hr : r ∈ ensureCol t)
    (hb : blank r.latent_path = true)
    (hf : make_latent_path r.image_path = .error ()) :
    fill_latent t = .error () ∧
      ∀ a : MainArgs, mainProg a ⟨true, t⟩ = .raised := by
  have herr : applyTransform (ensureCol t) = .error () :=
    applyTransform_error_of_mem r (ensureCol t) hr (fillRow_blank_err r hb hf)
  have hfl : fill_latent t = .error () := by
    unfold fill_latent
    rw [herr]
  refine ⟨hfl, fun a => ?_⟩
  unfold mainProg
  simp [hfl]

/-- Witness for C4: a one-row table whose `image_path` lacks the marker. -/
theorem fill_latent_fail_fast_witness :
    fill_latent (Table.mk true [Row.mk ['b', 'a', 'd'] none []]) = .error () ∧
      mainProg ⟨['i'], none⟩ ⟨true, Table.mk true [Row.mk ['b', 'a', 'd'] none []]⟩ =
        .raised :=
  ⟨(fill_latent_fail_fast (Table.mk true [Row.mk ['b', 'a', 'd'] none []])
      (Row.mk ['b', 'a', 'd'] none []) (by decide) (by decide) rfl).1,
    (fill_latent_fail_fast (Table.mk true [Row.mk ['b', 'a', 'd'] none []])
      (Row.mk ['b', 'a', 'd'] none []) (by decide) (by decide) rfl).2 ⟨['i'], none⟩⟩

lemma fillRow_frame (a b : Row) (h : fillRow a = .ok b) :
    b.image_path = a.image_path ∧ b.others = a.others := by
  rcases fillRow_ok_cases a b h with ⟨_, rfl⟩ | ⟨_, v, _, rfl⟩ <;> exact ⟨rfl, rfl⟩

lemma fillRow_keep (a b : Row) (h : fillRow a = .ok b)
    (hb : blank a.latent_path = false) : b.latent_path = a.latent_path := by
  rcases fillRow_ok_cases a b h with ⟨_, rfl⟩ | ⟨hbt, _, _, _⟩
  · rfl
  · rw [hbt] at hb
    exact absurd hb (by decide)

/-- Inversion of a successful `fill_latent`. -/
lemma fill_latent_ok_elim (t t' : Table) (h : fill_latent t = .ok t') :
    t'.hasLatentCol = true ∧
      List.Forall₂ (fun a b => fillRow a = .ok b) (ensureCol t) t'.rows := by
  unfold fill_latent at h
  match happ : applyTransform (ensureCol t) with
  | .error e =>
    rw [happ] at h
    exact absurd h (by simp)
  | .ok rs =>
    rw [happ] at h
    rw [Except.ok.injEq] at h
    rw [← h]
    exact ⟨rfl, applyTransform_eq_ok _ _ happ⟩

/-- C5: `fill_latent` modifies only the `latent_path` column — any row whose
`latent_path` was already non-blank keeps that exact value (even if it is
inconsistent with the transform of its `image_path`), and the `image_path`
cell and every other column's cell of every row are unchanged. -/
theorem fill_latent_frame (t t' : Table) (h : fill_latent t = .ok t') :
    List.Forall₂ (fun r r' =>
      r'.image_path = r.image_path ∧ r'.others = r.others ∧
        (t.hasLatentCol = true → blank r.latent_path = false →
          r'.latent_path = r.latent_path)) t.rows t'.rows := by
  obtain ⟨-, hfor⟩ := fill_latent_ok_elim t t' h
  by_cases ht : t.hasLatentCol = true
  · rw [ensureCol_of_hasCol t ht] at hfor
    refine hfor.imp (fun a b hab => ?_)
    obtain ⟨hi, ho⟩ := fillRow_frame a b hab
    exact ⟨hi, ho, fun _ hb => fillRow_keep a b hab hb⟩
  · rw [Bool.not_eq_true] at ht
    rw [ensureCol_of_noCol t ht, List.forall₂_map_left_iff] at hfor
    refine hfor.imp (fun a b hab => ?_)
    obtain ⟨hi, ho⟩ := fillRow_frame (resetLatent a) b hab
    refine ⟨hi, ho, fun hcol _ => ?_⟩
    rw [ht] at hcol
    exact absurd hcol (by decide)

/-- Witness for C5: the first row's stale `latent_path` value survives, the
second column of both rows survives. -/
theorem fill_latent_frame_witness :
    List.Forall₂ (fun r r' =>
      r'.image_path = r.image_path ∧ r'.others = r.others ∧
        ((Table.mk true
            [Row.mk ['a', '.', 'n', 'i', 'i'] (some ['s', 't', 'a', 'l', 'e']) [some ['o']],
              Row.mk ['b', '.', 'n', 'i', 'i'] none [none]]).hasLatentCol = true →
          blank r.latent_path = false → r'.latent_path = r.latent_path))
      (Table.mk true
        [Row.mk ['a', '.', 'n', 'i', 'i'] (some ['s', 't', 'a', 'l', 'e']) [some ['o']],
          Row.mk ['b', '.', 'n', 'i', 'i'] none [none]]).rows
      (Table.mk true
        [Row.mk ['a', '.', 'n', 'i', 'i'] (some ['s', 't', 'a', 'l', 'e']) [some ['o']],
          Row.mk ['b', '.', 'n', 'i', 'i']
            (some (['b'] ++ LATENT)) [none]]).rows :=
  fill_latent_frame _ _ rfl

/-- The `latent_path` value a row has before `fill_latent` runs: its cell when
the column exists, unset otherwise. -/
def priorLatent (t : Table) (r : Row) : Option (List Char) :=
  if t.hasLatentCol then r.latent_path else none

lemma blank_of_missing (c : Option (List Char))
    (h : c = none ∨ ∃ s, c = some s ∧ strip s = []) : blank c = true := by
  rcases h with rfl | ⟨s, rfl, hs⟩
  · rfl
  · unfold blank
    simp [hs]

lemma blank_false_of_strip_ne (s : List Char) (h : strip s ≠ []) :
    blank (some s) = false := by
  unfold blank
  simpa using h

lemma fillRow_overwrite (a b : Row) (h : fillRow a = .ok b)
    (hb : blank a.latent_path = true) :
    ∃ v, make_latent_path a.image_path = .ok v ∧ b.latent_path = some v := by
  rcases fillRow_ok_cases a b h with ⟨hbf, _⟩ | ⟨_, v, hv, rfl⟩
  · rw [hb] at hbf
    exact absurd hbf (by decide)
  · exact ⟨v, hv, rfl⟩

/-- C6: the missing-set of `fill_latent` is exactly the rows whose
`latent_path` value is unset (NA, or the whole column absent) or strips to the
empty string — in particular a whitespace-only value is treated as missing.
Row for row: a missing `latent_path` is overwritten with the transform of that
row's `image_path`, and any other `latent_path` is kept verbatim. -/
theorem fill_latent_missing_set (t t' : Table) (h : fill_latent t = .ok t') :
    List.Forall₂ (fun r r' =>
      ((priorLatent t r = none ∨ ∃ s, priorLatent t r = some s ∧ strip s = []) →
        ∃ v, make_latent_path r.image_path = .ok v ∧ r'.latent_path = some v) ∧
      (∀ s, priorLatent t r = some s → strip s ≠ [] → r'.latent_path = some s))
      t.rows t'.rows := by
  obtain ⟨-, hfor⟩ := fill_latent_ok_elim t t' h
  by_cases ht : t.hasLatentCol = true
  · rw [ensureCol_of_hasCol t ht] at hfor
    refine hfor.imp (fun a b hab => ?_)
    have hprior : priorLatent t a = a.latent_path := by
      unfold priorLatent
      rw [ht]
      rfl
    constructor
    · intro hmiss
      rw [hprior] at hmiss
      exact fillRow_overwrite a b hab (blank_of_missing _ hmiss)
    · intro s hs hstrip
      rw [hprior] at hs
      have := fillRow_keep a b hab (by rw [hs]; exact blank_false_of_strip_ne s hstrip)
      rw [this, hs]
  · rw [Bool.not_eq_true] at ht
    rw [ensureCol_of_noCol t ht, List.forall₂_map_left_iff] at hfor
    refine hfor.imp (fun a b hab => ?_)
    have hprior : priorLatent t a = none := by
      unfold priorLatent
      rw [ht]
      rfl
    constructor
    · intro _
      exact fillRow_overwrite (resetLatent a) b hab (by rfl)
    · intro s hs _
      rw [hprior] at hs
      exact absurd hs (by simp)

/-- Witness for C6: a whitespace-only cell is overwritten, a non-blank cell is
kept, an NA cell is overwritten. -/
theorem fill_latent_missing_set_witness :
    List.Forall₂ (fun r r' =>
      ((priorLatent (Table.mk true
          [Row.mk ['a', '.', 'n', 'i', 'i'] (some [' ', '\t']) [],
            Row.mk ['b', '.', 'n', 'i', 'i'] (some ['k']) [],
            Row.mk ['c', '.', 'n', 'i', 'i'] none []]) r = none ∨
        ∃ s, priorLatent (Table.mk true
          [Row.mk ['a', '.', 'n', 'i', 'i'] (some [' ', '\t']) [],
            Row.mk ['b', '.', 'n', 'i', 'i'] (some ['k']) [],
            Row.mk ['c', '.', 'n', 'i', 'i'] none []]) r = some s ∧ strip s = []) →
        ∃ v, make_latent_path r.image_path = .ok v ∧ r'.latent_path = some v) ∧
      (∀ s, priorLatent (Table.mk true
          [Row.mk ['a', '.', 'n', 'i', 'i'] (some [' ', '\t']) [],
            Row.mk ['b', '.', 'n', 'i', 'i'] (some ['k']) [],
            Row.mk ['c', '.', 'n', 'i', 'i'] none []]) r = some s → strip s ≠ [] →
        r'.latent_path = some s))
      (Table.mk true
        [Row.mk ['a', '.', 'n', 'i', 'i'] (some [' ', '\t']) [],
          Row.mk ['b', '.', 'n', 'i', 'i'] (some ['k']) [],
          Row.mk ['c', '.', 'n', 'i', 'i'] none []]).rows
      (Table.mk true
        [Row.mk ['a', '.', 'n', 'i', 'i'] (some (['a'] ++ LATENT)) [],
          Row.mk ['b', '.', 'n', 'i', 'i'] (some ['k']) [],
          Row.mk ['c', '.', 'n', 'i', 'i'] (some (['c'] ++ LATENT)) []]).rows :=
  fill_latent_missing_set _ _ rfl

lemma forall₂_right_mem {R : Row → Row → Prop} :
    ∀ l l', List.Forall₂ R l l' → ∀ b ∈ l', ∃ a, R a b
  | _, _, List.Forall₂.nil, b, hb => absurd hb (List.not_mem_nil b)
  | _, _, List.Forall₂.cons h hl, b, hb => by
    rcases List.mem_cons.mp hb with rfl | hb'
    · exact ⟨_, h⟩
    · exact forall₂_right_mem _ _ hl b hb'

/-- Any row produced by a successful `fillRow` has a non-blank
`latent_path`. -/
lemma fillRow_ok_nonblank (a b : Row) (h : fillRow a = .ok b) :
    blank b.latent_path = false := by
  rcases fillRow_ok_cases a b h with ⟨hbf, rfl⟩ | ⟨_, v, hv, rfl⟩
  · exact hbf
  · simpa using blank_make_ok a.image_path v hv

/-- C7: `fill_latent` is idempotent — on a table whose `image_path` values all
end in a recognized marker, a second application returns the first result
unchanged (its missing-set is empty). -/
theorem fill_latent_idempotent (t t' : Table)
    (_h : ∀ r ∈ t.rows, ends_with_marker r.image_path = true)
    (hf : fill_latent t = .ok t') :
    fill_latent t' = .ok t' := by
  obtain ⟨hcol, hfor⟩ := fill_latent_ok_elim t t' hf
  have hnb : ∀ b ∈ t'.rows, blank b.latent_path = false := by
    intro b hb
    obtain ⟨a, hab⟩ := forall₂_right_mem _ _ hfor b hb
    exact fillRow_ok_nonblank a b hab
  have happ : applyTransform (ensureCol t') = .ok t'.rows := by
    rw [ensureCol_of_hasCol t' hcol]
    exact applyTransform_id_of_not_blank t'.rows hnb
  unfold fill_latent
  rw [happ]
  match t', hcol with
  | Table.mk true _, _ => rfl

/-- Witness for C7: a second pass over the filled one-row table is the
identity. -/
theorem fill_latent_idempotent_witness :
    (∀ r ∈ (Table.mk true [Row.mk ['a', '.', 'n', 'i', 'i'] none []]).rows,
      ends_with_marker r.image_path = true) ∧
    fill_latent (Table.mk true
        [Row.mk ['a', '.', 'n', 'i', 'i'] (some (['a'] ++ LATENT)) []]) =
      .ok (Table.mk true
        [Row.mk ['a', '.', 'n', 'i', 'i'] (some (['a'] ++ LATENT)) []]) :=
  ⟨by decide,
    fill_latent_idempotent (Table.mk true [Row.mk ['a', '.', 'n', 'i', 'i'] none []])
      (Table.mk true [Row.mk ['a', '.', 'n', 'i', 'i'] (some (['a'] ++ LATENT)) []])
      (by decide) rfl⟩

/-- C8: `main` terminates via `sys.exit` with a diagnostic — writing no output
file — whenever the loaded table lacks the `image_path` column; otherwise, on
success, it writes the filled table to the output destination (the `--out`
argument, defaulting to the input path) and prints a one-line confirmation in
which that destination appears. -/
theorem mainProg_behavior (a : MainArgs) (l : LoadedCSV) :
    (l.hasImageCol = false → mainProg a l = .exited missingColMsg) ∧
    (∀ t', l.hasImageCol = true → fill_latent l.table = .ok t' →
      mainProg a l = .written (a.out.getD a.inp) t' (confirmMsg (a.out.getD a.inp)) ∧
        (a.out.getD a.inp) <:+ confirmMsg (a.out.getD a.inp)) := by
  constructor
  · intro h
    unfold mainProg
    rw [if_pos h]
  · intro t' hcol hfill
    constructor
    · unfold mainProg
      rw [if_neg (by rw [hcol]; decide), hfill]
    · exact List.suffix_append _ _

/-- Witness for C8: with `--out` absent the destination defaults to the input
path, and the confirmation line ends in it. -/
theorem mainProg_behavior_witness :
    mainProg ⟨['i', 'n'], none⟩
        ⟨true, Table.mk true [Row.mk ['a', '.', 'n', 'i', 'i'] none []]⟩ =
      .written ((none : Option (List Char)).getD ['i', 'n'])
        (Table.mk true [Row.mk ['a', '.', 'n', 'i', 'i'] (some (['a'] ++ LATENT)) []])
        (confirmMsg ((none : Option (List Char)).getD ['i', 'n'])) ∧
      ((none : Option (List Char)).getD ['i', 'n']) <:+
        confirmMsg ((none : Option (List Char)).getD ['i', 'n']) :=
  (mainProg_behavior ⟨['i', 'n'], none⟩
      ⟨true, Table.mk true [Row.mk ['a', '.', 'n', 'i', 'i'] none []]⟩).2
    (Table.mk true [Row.mk ['a', '.', 'n', 'i', 'i'] (some (['a'] ++ LATENT)) []])
    rfl rfl

/-- C10: on a transform failure for a row of the missing-set, `fill_latent`
raises with no row's `latent_path` assigned — the in-memory table at the point
of the raise is `afterEnsure t`, whose `latent_path` cells are bit-for-bit the
prior ones when the column pre-existed, and freshly created all-unset when it
did not; in the latter case the table is not bit-for-bit the input table. -/
theorem fill_latent_error_state (t : Table)
    (hfail : ∃ r ∈ ensureCol t, blank r.latent_path = true ∧
      make_latent_path r.image_path = .error ()) :
    fill_latent t = .error () ∧
    (afterEnsure t).hasLatentCol = true ∧
    List.Forall₂ (fun r r' =>
        r'.image_path = r.image_path ∧ r'.others = r.others ∧
          r'.latent_path = (if t.hasLatentCol then r.latent_path else none))
      t.rows (afterEnsure t).rows ∧
    (t.hasLatentCol = false → afterEnsure t ≠ t) := by
  obtain ⟨r, hr, hb, hf⟩ := hfail
  have herr : applyTransform (ensureCol t) = .error () :=
    applyTransform_error_of_mem r (ensureCol t) hr (fillRow_blank_err r hb hf)
  refine ⟨by unfold fill_latent; rw [herr], rfl, ?_, ?_⟩
  · by_cases ht : t.hasLatentCol = true
    · show List.Forall₂ _ t.rows (ensureCol t)
      rw [ensureCol_of_hasCol t ht, ht]
      exact List.forall₂_same.mpr (fun x _ => ⟨rfl, rfl, by rw [if_pos rfl]⟩)
    · rw [Bool.not_eq_true] at ht
      show List.Forall₂ _ t.rows (ensureCol t)
      rw [ensureCol_of_noCol t ht, ht, List.forall₂_map_right_iff]
      exact List.forall₂_same.mpr (fun x _ => ⟨rfl, rfl, by rw [if_neg (by decide)]; rfl⟩)
  · intro ht heq
    have h1 : (afterEnsure t).hasLatentCol = false := by rw [heq]; exact ht
    rw [show (afterEnsure t).hasLatentCol = true from rfl] at h1
    exact absurd h1 (by decide)

/-- Witness for C10: a column-less one-row table with a malformed
`image_path` — the error state has the column created all-NA and differs from
the input table. -/
theorem fill_latent_error_state_witness :
    fill_latent (Table.mk false [Row.mk ['b', 'a', 'd'] (some ['j']) []]) = .error () ∧
    (afterEnsure (Table.mk false [Row.mk ['b', 'a', 'd'] (some ['j']) []])).hasLatentCol
      = true ∧
    List.Forall₂ (fun r r' =>
        r'.image_path = r.image_path ∧ r'.others = r.others ∧
          r'.latent_path =
            (if (Table.mk false [Row.mk ['b', 'a', 'd'] (some ['j']) []]).hasLatentCol
              then r.latent_path else none))
      (Table.mk false [Row.mk ['b', 'a', 'd'] (some ['j']) []]).rows
      (afterEnsure (Table.mk false [Row.mk ['b', 'a', 'd'] (some ['j']) []])).rows ∧
    ((Table.mk false [Row.mk ['b', 'a', 'd'] (some ['j']) []]).hasLatentCol = false →
      afterEnsure (Table.mk false [Row.mk ['b', 'a', 'd'] (some ['j']) []]) ≠
        Table.mk false [Row.mk ['b', 'a', 'd'] (some ['j']) []]) :=
  fill_latent_error_state (Table.mk false [Row.mk ['b', 'a', 'd'] (some ['j']) []])
    ⟨Row.mk ['b', 'a', 'd'] none [], by decide, by decide, rfl⟩
